import Mathlib

/-!
Verification of the spectra-processing pipeline (spectra_processing.py).

The embedding models pandas DataFrames with two numeric columns as lists of
(wavelength, intensity) pairs of rationals (exact arithmetic idealizes the
floating-point computation), and numpy arrays as lists of rationals.  Code
paths that raise Python exceptions are modelled with Except; code paths that
print an error and return None are modelled with Option.  numpy indexing with
a possibly negative index is modelled by npGet below, which reproduces the
wrap-around semantics of negative indices and the IndexError outside
[-len, len).  Only the continuum normalizer needs real numbers, for the
Euclidean norm.
-/

/-- A spectrum table: ordered rows of (wavelength, intensity).  Models one
two-column DataFrame produced by LoadData. -/
abbrev SpectrumTable := List (ℚ × ℚ)

/-- Rows of pd.concat(spectra): all rows of all tables, in order. -/
def concatRows (spectra : List SpectrumTable) : List (ℚ × ℚ) :=
  spectra.flatten

/-- Sum of the intensities of the rows whose wavelength equals w
(the sum over one groupby group). -/
def sumAt (rows : List (ℚ × ℚ)) (w : ℚ) : ℚ :=
  ((rows.filter (fun r => decide (r.1 = w))).map Prod.snd).sum

/-- Number of rows whose wavelength equals w (the size of one groupby group). -/
def countAt (rows : List (ℚ × ℚ)) (w : ℚ) : ℕ :=
  (rows.filter (fun r => decide (r.1 = w))).length

/-- The distinct wavelengths of the concatenated rows, sorted ascending:
the group keys of groupby('wavelength') with its default sort=True. -/
def groupKeys (rows : List (ℚ × ℚ)) : List ℚ :=
  List.insertionSort (· ≤ ·) (rows.map Prod.fst).dedup

/-- AverageSpectra: pd.concat(spectra) raises ValueError("No objects to
concatenate") on an empty list; otherwise groupby('wavelength') of the
concatenated rows, taking the mean intensity of each group, with group keys
sorted ascending. -/
def AverageSpectra (spectra : List SpectrumTable) : Except String SpectrumTable :=
  if spectra.isEmpty then .error "No objects to concatenate"
  else
    let rows := concatRows spectra
    .ok ((groupKeys rows).map (fun w => (w, sumAt rows w / (countAt rows w : ℚ))))

/-- AddSpectra: same as AverageSpectra but with the sum of each group. -/
def AddSpectra (spectra : List SpectrumTable) : Except String SpectrumTable :=
  if spectra.isEmpty then .error "No objects to concatenate"
  else
    let rows := concatRows spectra
    .ok ((groupKeys rows).map (fun w => (w, sumAt rows w)))

/-- Looking up the intensity recorded at wavelength w in a table (first
matching row, as a positional lookup in the aggregated output). -/
def lookupI (t : SpectrumTable) (w : ℚ) : Option ℚ :=
  (t.find? (fun r => decide (r.1 = w))).map Prod.snd

/-- The input tables that contain wavelength w. -/
def tablesContaining (spectra : List SpectrumTable) (w : ℚ) : List SpectrumTable :=
  spectra.filter (fun t => decide (w ∈ t.map Prod.fst))

/-- The intensity a table records at wavelength w (the unique one when the
table has no duplicate wavelengths and contains w). -/
def intensityAt (t : SpectrumTable) (w : ℚ) : ℚ :=
  ((t.find? (fun r => decide (r.1 = w))).map Prod.snd).getD 0

/-- A DataFrame with arbitrarily many named numeric columns, as column names
plus column vectors.  Needed for the correctors, whose validation inspects the
column count and which rename columns in place. -/
structure DF where
  cols : List String
  colsData : List (List ℚ)
deriving DecidableEq, Repr

/-- Row count (df.shape[0]): the length of the first column. -/
def DF.rowCount (df : DF) : ℕ :=
  (df.colsData.headD []).length

/-- Index of the first column with the given name. -/
def colIdx : List String → String → Option ℕ
  | [], _ => none
  | c :: cs, name => if c = name then some 0 else (colIdx cs name).map (· + 1)

/-- Column lookup by name (df[name]), first matching column. -/
def DF.getCol (df : DF) (name : String) : Option (List ℚ) :=
  (colIdx df.cols name).bind (fun i => df.colsData.get? i)

/-- Column assignment by name (df[name] = v) for an existing column. -/
def DF.setCol (df : DF) (name : String) (v : List ℚ) : DF :=
  match colIdx df.cols name with
  | none => df
  | some i => { df with colsData := df.colsData.set i v }

/-- One iteration of the validation loop of ProcessData: if df.shape[1] != 2
the function prints and returns None, otherwise df.columns is renamed in
place to ['wavelength', 'intensity']. -/
def renameStep (df : DF) : Option DF :=
  if df.cols.length = 2 then some { df with cols := ["wavelength", "intensity"] }
  else none

/-- ProcessData, state-explicit: the first component of the result is the
post-call state of the three argument DataFrames (the source mutates
df.columns in place on every df examined before a failure, and on all three
on success); the second component is the returned value, None on a validation
failure.  The subtraction rawdata['intensity'] - background['intensity'] -
dark['intensity'] is positional (all tables carry the default RangeIndex). -/
def ProcessData (rawdata background dark : DF) :
    (DF × DF × DF) × Option DF :=
  match renameStep rawdata with
  | none => ((rawdata, background, dark), none)
  | some raw2 =>
    match renameStep background with
    | none => ((raw2, background, dark), none)
    | some bg2 =>
      match renameStep dark with
      | none => ((raw2, bg2, dark), none)
      | some dk2 =>
        if raw2.rowCount = bg2.rowCount ∧ bg2.rowCount = dk2.rowCount then
          ((raw2, bg2, dk2),
           some { cols := ["wavelength", "intensity"],
                  colsData := [raw2.colsData.getD 0 [],
                    List.zipWith (· - ·)
                      (List.zipWith (· - ·) (raw2.colsData.getD 1 [])
                        (bg2.colsData.getD 1 []))
                      (dk2.colsData.getD 1 [])] })
        else ((raw2, bg2, dk2), none)

/-- Subtraction of a numpy value array from a pandas Series
(series -= array): elementwise when the lengths agree, broadcast when the
array has length one, and a ValueError otherwise. -/
def seriesSubValues (s vals : List ℚ) : Except String (List ℚ) :=
  if vals.length = s.length then .ok (List.zipWith (· - ·) s vals)
  else if vals.length = 1 then .ok (s.map (fun x => x - vals.headD 0))
  else .error "ValueError: could not broadcast"

/-- processed_df['intensity'] -= ref['intensity'].values on a copy of df. -/
def colSub (df ref : DF) : Except String DF :=
  match df.getCol "intensity", ref.getCol "intensity" with
  | some s, some v => (seriesSubValues s v).map (fun r => df.setCol "intensity" r)
  | _, _ => .error "KeyError: intensity"

/-- The body of the loop of ProcessDataEach for one raw table: the table is
copied and the toggled references are subtracted from the copy.  No shape or
length validation is performed (it is commented out in the source). -/
def processOne (background dark : DF) (sb sd : Bool) (data : DF) :
    Except String DF := do
  let d1 ← if sb then colSub data background else .ok data
  let d2 ← if sd then colSub d1 dark else .ok d1
  .ok d2

/-- ProcessDataEach: maps processOne over the raw tables; a raised exception
aborts the whole call.  The inputs are never mutated (the loop works on
data.copy()). -/
def ProcessDataEach (rawdata : List DF) (background dark : DF)
    (sb sd : Bool) : Except String (List DF) :=
  rawdata.mapM (processOne background dark sb sd)

/-- DefSpectrumForLines.  The source body reads the global sum_spectra, not
the parameter spectr: the first argument below is the value of the global at
call time, the second the (ignored) parameter.  The window mask is computed
from the global's wavelength column and applied to both of its columns. -/
def DefSpectrumForLines (sum_spectra : SpectrumTable) (spectr : SpectrumTable)
    (minwavelength maxwavelength : ℚ) : List ℚ × List ℚ :=
  let keep := sum_spectra.filter
    (fun p => decide (minwavelength ≤ p.1 ∧ p.1 ≤ maxwavelength))
  (keep.map Prod.fst, keep.map Prod.snd)

/-- Chebyshev polynomial of the first kind, by the recurrence the astropy
Chebyshev1D model evaluates. -/
def chebT : ℕ → ℚ → ℚ
  | 0, _ => 1
  | 1, x => x
  | n + 2, x => 2 * x * chebT (n + 1) x - chebT n x

/-- Dot product of two coefficient lists. -/
def dotQ (a b : List ℚ) : ℚ :=
  (List.zipWith (· * ·) a b).sum

/-- One row elimination step of Gaussian elimination: subtract the multiple
of the pivot row p that zeroes the leading entry of r, and drop that entry.
The default 1 for the pivot head is never used: p is only ever a row whose
head is nonzero. -/
def elimAgainst (p r : List ℚ) : List ℚ :=
  let c := r.headD 0 / p.headD 1
  (List.zipWith (fun a b => a - c * b) r p).tail

/-- Split off the first row whose leading entry is nonzero (the pivot row):
the rows before it, the pivot, and the rows after it. -/
def splitPivot : List (List ℚ) → Option (List (List ℚ) × List ℚ × List (List ℚ))
  | [] => none
  | r :: rs =>
    if r.headD 0 ≠ 0 then some ([], r, rs)
    else (splitPivot rs).map (fun x => (r :: x.1, x.2.1, x.2.2))

/-- Solve an augmented linear system (each row: m coefficients then the right
hand side) by Gaussian elimination, m unknowns.  A zero pivot column assigns
zero to its unknown.  On the nonsingular normal systems produced by the
continuum fit this agrees with numpy's lstsq, which astropy's
LinearLSQFitter calls. -/
def gaussSolve : ℕ → List (List ℚ) → List ℚ
  | 0, _ => []
  | m + 1, rows =>
    match splitPivot rows with
    | none => 0 :: gaussSolve m (rows.map List.tail)
    | some x =>
      let p := x.2.1
      let sol := gaussSolve m ((x.1 ++ x.2.2).map (elimAgainst p))
      ((p.tail.getLastD 0 - dotQ p.tail.dropLast sol) / p.headD 1) :: sol

/-- astropy maps the fitted domain [min(wl), max(wl)] onto the Chebyshev
window [-1, 1] before evaluating the basis. -/
def scaleX (wl : List ℚ) : List ℚ :=
  let xmin := wl.foldl min (wl.headD 0)
  let xmax := wl.foldl max (wl.headD 0)
  wl.map (fun x => (2 * x - xmin - xmax) / (xmax - xmin))

/-- Column j of the Chebyshev design matrix over the scaled abscissas. -/
def chebCol (xs : List ℚ) (j : ℕ) : List ℚ :=
  xs.map (chebT j)

/-- Row i of the augmented normal system of the least-squares problem. -/
def normalRow (d : ℕ) (xs ys : List ℚ) (i : ℕ) : List ℚ :=
  ((List.range (d + 1)).map (fun j => dotQ (chebCol xs i) (chebCol xs j)))
    ++ [dotQ (chebCol xs i) ys]

/-- LinearLSQFitter applied to Chebyshev1D(degree=d): the values of the
fitted continuum at the data abscissas. -/
def chebFit (d : ℕ) (wl ys : List ℚ) : List ℚ :=
  let xs := scaleX wl
  let beta := gaussSolve (d + 1) ((List.range (d + 1)).map (normalRow d xs ys))
  xs.map (fun x => dotQ beta ((List.range (d + 1)).map (fun j => chebT j x)))

/-- The unnormalized residual intensity - g1_fit(wavelength). -/
def residualVec (d : ℕ) (wl ys : List ℚ) : List ℚ :=
  List.zipWith (· - ·) ys (chebFit d wl ys)

/-- Sum of squares of a rational list. -/
def sumSqQ (l : List ℚ) : ℚ :=
  (l.map (fun x => x * x)).sum

/-- Sum of squares of a real list. -/
def sumSqR (l : List ℝ) : ℝ :=
  (l.map (fun x => x * x)).sum

/-- FitContinuum: fit the continuum, subtract, and divide by the Euclidean
norm of the whole residual (np.linalg.norm), one global scalar.  No code
path raises; on a zero residual numpy's 0/0 divisions yield NaN values,
which the exact model renders as Lean's 0/0 = 0 (an array is still
returned, never an error).  The plotting branch is external rendering and
out of scope. -/
noncomputable def FitContinuum (d : ℕ) (wl ys : List ℚ) : List ℝ :=
  let r := residualVec d wl ys
  List.map (fun x : ℚ => (x : ℝ) / Real.sqrt ((sumSqQ r : ℝ))) r

/-- numpy array indexing arr[i] for a possibly negative Python int index:
wrap-around for -len <= i < 0, IndexError outside [-len, len). -/
def npGet (l : List ℚ) (i : ℤ) : Except String ℚ :=
  if 0 ≤ i ∧ i < (l.length : ℤ) then .ok (l.getD i.toNat 0)
  else if -(l.length : ℤ) ≤ i ∧ i < 0 then .ok (l.getD (i + l.length).toNat 0)
  else .error "IndexError"

/-- Tail of the first-minimum scan of np.argmin: strict improvement keeps the
earliest index, as numpy does. -/
def argminAux : List ℚ → ℕ → ℕ → ℚ → ℕ
  | [], _, bi, _ => bi
  | x :: xs, i, bi, bv =>
    if x < bv then argminAux xs (i + 1) i x else argminAux xs (i + 1) bi bv

/-- np.argmin(np.abs(wl - w)): the first index of wl minimizing the absolute
difference to w; np.argmin raises ValueError on an empty array. -/
def argminAbs (wl : List ℚ) (w : ℚ) : Option ℕ :=
  match wl with
  | [] => none
  | x :: xs => some (argminAux (xs.map (fun y => |y - w|)) 1 0 |x - w|)

/-- Python dict assignment d[k] = v on a dict modelled as an insertion-ordered
association list: overwrite in place if the key exists, else append. -/
def dictInsert {α β : Type} [DecidableEq α] (d : List (α × β)) (k : α) (v : β) :
    List (α × β) :=
  if k ∈ d.map Prod.fst then
    d.map (fun p => if p.1 = k then (k, v) else p)
  else d ++ [(k, v)]

/-- One iteration of the catalog loop of DetectAndPlotLines.  The index is
snapped with np.argmin against the array the source actually reads (the
global wavelength_truncated, passed here as wl); the depth test runs before
the local-minimum test, whose two lookups are evaluated left first with
Python's short-circuit `and`. -/
def detectCatalogStep (spectra wl : List ℚ) (threshold : ℚ)
    (acc : List (String × ℚ)) (entry : String × ℚ) :
    Except String (List (String × ℚ)) :=
  match argminAbs wl entry.2 with
  | none => .error "ValueError: attempt to get argmin of an empty sequence"
  | some index => do
    let flux ← npGet spectra (index : ℤ)
    if threshold ≤ -flux then do
      let left ← npGet spectra ((index : ℤ) - 10)
      if flux < left then do
        let right ← npGet spectra ((index : ℤ) + 10)
        if flux < right then pure (dictInsert acc entry.1 entry.2)
        else pure acc
      else pure acc
    else pure acc

/-- The catalog-line loop of DetectAndPlotLines over spectral_lines.items(). -/
def detectCatalog (spectra wl : List ℚ) (lines : List (String × ℚ))
    (threshold : ℚ) : Except String (List (String × ℚ)) :=
  lines.foldlM (detectCatalogStep spectra wl threshold) []

/-- One iteration of the telluric loop: same snapping, fixed cutoff 0.02
(the threshold argument is not read), local-minimum window of plus or minus
one sample, and the detected dict is keyed by the wavelength itself. -/
def detectTelluricStep (spectra wl : List ℚ) (acc : List (ℚ × ℚ)) (w : ℚ) :
    Except String (List (ℚ × ℚ)) :=
  match argminAbs wl w with
  | none => .error "ValueError: attempt to get argmin of an empty sequence"
  | some index => do
    let flux ← npGet spectra (index : ℤ)
    if (0.02 : ℚ) ≤ -flux then do
      let left ← npGet spectra ((index : ℤ) - 1)
      if flux < left then do
        let right ← npGet spectra ((index : ℤ) + 1)
        if flux < right then pure (dictInsert acc w w)
        else pure acc
      else pure acc
    else pure acc

/-- The telluric loop of DetectAndPlotLines over telluric_lines["TL"]. -/
def detectTelluric (spectra wl : List ℚ) (ws : List ℚ) :
    Except String (List (ℚ × ℚ)) :=
  ws.foldlM (detectTelluricStep spectra wl) []

/-- The detection core of DetectAndPlotLines: both loops, returning the two
dicts the rendering collaborator consumes (detected_lines, telluric_lines_d).
The body reads the global wavelength_truncated for snapping, never the
wavelength parameter, which is therefore unused below exactly as in the
source; rendering and file saving are out of scope.  telluric_lines is the
list stored under the "TL" key of the telluric dict argument. -/
def DetectAndPlotLines (wavelength_truncated : List ℚ) (spectra : List ℚ)
    (wavelength : List ℚ) (spectral_lines : List (String × ℚ))
    (telluric_lines : List ℚ) (threshold : ℚ) :
    Except String (List (String × ℚ) × List (ℚ × ℚ)) := do
  let d ← detectCatalog spectra wavelength_truncated spectral_lines threshold
  let t ← detectTelluric spectra wavelength_truncated telluric_lines
  .ok (d, t)

/-! Helper lemmas for evaluating the Except monad and integer indices. -/

@[simp] theorem exBind_ok {ε α β : Type} (a : α) (f : α → Except ε β) :
    (Except.ok a : Except ε α) >>= f = f a := rfl

@[simp] theorem exBind_err {ε α β : Type} (e : ε) (f : α → Except ε β) :
    (Except.error e : Except ε α) >>= f = Except.error e := rfl

@[simp] theorem exPure {ε α : Type} (a : α) :
    (pure a : Except ε α) = Except.ok a := rfl

@[simp] theorem exError_ne_ok {ε α : Type} (e : ε) (a : α) :
    ((Except.error e : Except ε α) = Except.ok a) ↔ False :=
  ⟨fun h => Except.noConfusion h, False.elim⟩

@[simp] theorem exOk_ne_error {ε α : Type} (e : ε) (a : α) :
    ((Except.ok a : Except ε α) = Except.error e) ↔ False :=
  ⟨fun h => Except.noConfusion h, False.elim⟩

@[simp] theorem exOk_inj {ε α : Type} (a b : α) :
    ((Except.ok a : Except ε α) = Except.ok b) ↔ a = b :=
  ⟨fun h => by cases h; rfl, fun h => by rw [h]⟩

@[simp] theorem intToNat_numeral (n : ℕ) [n.AtLeastTwo] :
    (Int.toNat (no_index (OfNat.ofNat n))) = OfNat.ofNat n := rfl

/-- The fitted continuum has one value per abscissa. -/
theorem chebFit_length (d : ℕ) (wl ys : List ℚ) :
    (chebFit d wl ys).length = wl.length := by
  simp [chebFit, scaleX]

/-- The residual has the length of the (windowed) intensity array when the
two windowed arrays have equal length. -/
theorem residualVec_length (d : ℕ) (wl ys : List ℚ) (h : wl.length = ys.length) :
    (residualVec d wl ys).length = ys.length := by
  simp [residualVec, chebFit_length, h]

/-- FitContinuum output length equals the residual length. -/
theorem FitContinuum_length (d : ℕ) (wl ys : List ℚ) (h : wl.length = ys.length) :
    (FitContinuum d wl ys).length = ys.length := by
  simp only [FitContinuum]
  rw [List.length_map]
  exact residualVec_length d wl ys h

/-- Claim C8: calling AverageSpectra or AddSpectra on an empty list of
tables signals the empty-input aggregation error (the ValueError raised by
pd.concat on no objects) and produces no aggregated table. -/
theorem c8_empty_input_error :
    AverageSpectra [] = .error "No objects to concatenate"
      ∧ AddSpectra [] = .error "No objects to concatenate" :=
  ⟨rfl, rfl⟩

/-- Claim C3 (the code is at odds with it): the stages are not pure
functions of their explicit arguments.  DefSpectrumForLines returns
different windows for equal arguments when the global sum_spectra differs
(first conjunct), and ignores its spectr parameter entirely (second
conjunct); the detection loop of DetectAndPlotLines likewise changes its
result for equal explicit arguments when the global wavelength_truncated
differs (third conjunct). -/
theorem c3_stages_read_global_state :
    (DefSpectrumForLines [(1, 10)] [(3, 30)] 0 10
        ≠ DefSpectrumForLines [(2, 20)] [(3, 30)] 0 10)
  ∧ (DefSpectrumForLines [(1, 10)] [(3, 30)] 0 10
        = DefSpectrumForLines [(1, 10)] [(9, 9)] 0 10)
  ∧ (DetectAndPlotLines [4, 5, 6] [0, -1, 0] [7, 8, 9] [("L", 5)] [] (1/2)
        ≠ DetectAndPlotLines [5, 6, 7] [0, -1, 0] [7, 8, 9] [("L", 5)] [] (1/2)) := by
  refine ⟨?_, rfl, ?_⟩
  · norm_num [DefSpectrumForLines, List.filter_cons]
  · norm_num [DetectAndPlotLines, detectCatalog, detectTelluric, detectCatalogStep,
      argminAbs, argminAux, npGet, List.foldlM, List.getD]

/-- Claim C4 fails on the code: at the constant window [5,5,5] over
wavelengths [1,2,3] the normalizer raises nothing and returns a full-length
residual array (numpy emits NaN values from the 0/0 divisions, rendered 0
in the exact model) instead of signalling a DegenerateSpectrum error. -/
theorem c4_counterexample : FitContinuum 1 [1, 2, 3] [5, 5, 5] = [0, 0, 0] := by
  have h : residualVec 1 [1, 2, 3] [5, 5, 5] = [0, 0, 0] := by
    norm_num [residualVec, chebFit, scaleX, normalRow, chebCol, chebT, dotQ, gaussSolve,
      splitPivot, elimAgainst, List.range, List.range.loop]
  simp [FitContinuum, h, sumSqQ]

/-- Claim C4 amended: on every constant window FitContinuum signals no
error and returns a residual array of the full window length (its entries
are the zero residual divided by the zero norm: NaN in numpy); concretely,
the fit reproduces a constant window exactly, leaving the zero residual. -/
theorem c4_amended :
    (∀ (d : ℕ) (wl : List ℚ) (k : ℚ),
      (FitContinuum d wl (List.replicate wl.length k)).length = wl.length)
  ∧ residualVec 1 [1, 2, 3] [5, 5, 5] = [0, 0, 0] := by
  constructor
  · intro d wl k
    have h := FitContinuum_length d wl (List.replicate wl.length k) (by simp)
    simpa using h
  · norm_num [residualVec, chebFit, scaleX, normalRow, chebCol, chebT, dotQ, gaussSolve,
      splitPivot, elimAgainst, List.range, List.range.loop]

/-- renameStep returns none exactly when the column count is not two. -/
theorem renameStep_none_iff (df : DF) :
    renameStep df = none ↔ df.cols.length ≠ 2 := by
  unfold renameStep
  split <;> simp_all

/-- renameStep succeeds exactly on two-column frames, renaming in place. -/
theorem renameStep_some_iff (df df' : DF) :
    renameStep df = some df' ↔
      df.cols.length = 2 ∧ df' = { df with cols := ["wavelength", "intensity"] } := by
  unfold renameStep
  split <;> simp_all [eq_comm]

/-- If ProcessData returns a corrected table, all three inputs had two
columns and equal row counts. -/
theorem processData_some_implies (raw bg dk : DF) (out : DF)
    (h : (ProcessData raw bg dk).2 = some out) :
    raw.cols.length = 2 ∧ bg.cols.length = 2 ∧ dk.cols.length = 2 ∧
      raw.rowCount = bg.rowCount ∧ bg.rowCount = dk.rowCount := by
  by_cases h1 : raw.cols.length = 2
  · by_cases h2 : bg.cols.length = 2
    · by_cases h3 : dk.cols.length = 2
      · by_cases h4 : raw.rowCount = bg.rowCount ∧ bg.rowCount = dk.rowCount
        · exact ⟨h1, h2, h3, h4.1, h4.2⟩
        · exfalso
          simp [DF.rowCount] at h4
          simp [ProcessData, renameStep, h1, h2, h3] at h
          split at h
          · rename_i hc
            simp [DF.rowCount] at hc
            exact h4 hc.1 hc.2
          · simp at h
      · simp [ProcessData, renameStep, h1, h2, h3] at h
    · simp [ProcessData, renameStep, h1, h2] at h
  · simp [ProcessData, renameStep, h1] at h

/-- mapM of a function that always succeeds with its argument is the
identity in the Except monad. -/
theorem mapM_ok_id {α : Type} (f : α → Except String α) (hf : ∀ a, f a = .ok a) :
    ∀ l : List α, l.mapM f = .ok l := by
  intro l
  induction l with
  | nil => rfl
  | cons a t ih => rw [List.mapM_cons, hf a, ih]; rfl

/-- Claim C5 fails on the code: ProcessDataEach performs none of the shape
validation (it is commented out in the source), so a raw table of length 5
with background and dark of length 4 and both subtraction toggles at their
defaults returns a corrected batch and signals nothing. -/
theorem c5_counterexample :
    ProcessDataEach [⟨["wavelength", "intensity"], [[1, 2, 3, 4, 5], [10, 11, 12, 13, 14]]⟩]
        ⟨["wavelength", "intensity"], [[1, 2, 3, 4], [1, 1, 1, 1]]⟩
        ⟨["wavelength", "intensity"], [[1, 2, 3, 4], [2, 2, 2, 2]]⟩ false false
      = .ok [⟨["wavelength", "intensity"], [[1, 2, 3, 4, 5], [10, 11, 12, 13, 14]]⟩]
    ∧ DF.rowCount ⟨["wavelength", "intensity"], [[1, 2, 3, 4, 5], [10, 11, 12, 13, 14]]⟩
      ≠ DF.rowCount ⟨["wavelength", "intensity"], [[1, 2, 3, 4], [1, 1, 1, 1]]⟩ := by
  constructor
  · simp [ProcessDataEach, processOne, List.mapM, List.mapM.loop]
  · simp [DF.rowCount]

/-- Claim C5 amended: ProcessData does validate, signalling the shape
mismatch by printing and returning None (no partial output) whenever the
three tables do not all have two columns and equal row counts; but
ProcessDataEach performs no validation at all: with both subtraction
toggles off (their defaults) it returns the raw tables unchanged whatever
their shapes. -/
theorem c5_amended :
    (∀ raw bg dk : DF,
      ¬(raw.cols.length = 2 ∧ bg.cols.length = 2 ∧ dk.cols.length = 2 ∧
          raw.rowCount = bg.rowCount ∧ bg.rowCount = dk.rowCount) →
        (ProcessData raw bg dk).2 = none)
  ∧ (∀ (rawdata : List DF) (bg dk : DF),
      ProcessDataEach rawdata bg dk false false = .ok rawdata) := by
  constructor
  · intro raw bg dk h
    cases hout : (ProcessData raw bg dk).2 with
    | none => rfl
    | some out => exact absurd (processData_some_implies raw bg dk out hout) h
  · intro rawdata bg dk
    exact mapM_ok_id _ (fun a => rfl) rawdata

/-- Claim C7 fails on the code: ProcessData renames the column labels of
its (two-column) inputs in place, so an input whose columns are named
otherwise is not identical to its pre-call state after the call. -/
theorem c7_counterexample :
    (ProcessData ⟨["a", "b"], [[1], [2]]⟩ ⟨["wavelength", "intensity"], [[1], [3]]⟩
        ⟨["wavelength", "intensity"], [[1], [4]]⟩).1.1
      ≠ ⟨["a", "b"], [[1], [2]]⟩ := by
  simp [ProcessData, renameStep, DF.rowCount]

/-- Claim C7 amended: the correction never mutates the wavelength or
intensity values of any input (the post-call column data equal the
pre-call column data for all three tables), and the corrected result is a
fresh table; but ProcessData does rename the column labels of the inputs it
examines in place to ['wavelength', 'intensity'], so each post-call cols
list is either untouched or that constant.  (ProcessDataEach subtracts on a
copy and mutates nothing, which the embedding reflects by returning its
outputs separately from its untouched arguments.) -/
theorem c7_amended : ∀ raw bg dk : DF,
    ((ProcessData raw bg dk).1.1.colsData = raw.colsData ∧
     (ProcessData raw bg dk).1.2.1.colsData = bg.colsData ∧
     (ProcessData raw bg dk).1.2.2.colsData = dk.colsData)
  ∧ ((ProcessData raw bg dk).1.1.cols = raw.cols ∨
       (ProcessData raw bg dk).1.1.cols = ["wavelength", "intensity"])
  ∧ ((ProcessData raw bg dk).1.2.1.cols = bg.cols ∨
       (ProcessData raw bg dk).1.2.1.cols = ["wavelength", "intensity"])
  ∧ ((ProcessData raw bg dk).1.2.2.cols = dk.cols ∨
       (ProcessData raw bg dk).1.2.2.cols = ["wavelength", "intensity"]) := by
  intro raw bg dk
  by_cases h1 : raw.cols.length = 2 <;> by_cases h2 : bg.cols.length = 2 <;>
    by_cases h3 : dk.cols.length = 2 <;>
    simp [ProcessData, renameStep, h1, h2, h3] <;>
    split <;> simp

/-- Witness for c5_amended at the spec scenario: raw of length 5,
background and dark of length 4. -/
theorem c5_amended_witness :
    ¬((DF.mk ["wavelength", "intensity"] [[1, 2, 3, 4, 5], [10, 11, 12, 13, 14]]).cols.length = 2 ∧
      (DF.mk ["wavelength", "intensity"] [[1, 2, 3, 4], [1, 1, 1, 1]]).cols.length = 2 ∧
      (DF.mk ["wavelength", "intensity"] [[1, 2, 3, 4], [2, 2, 2, 2]]).cols.length = 2 ∧
      (DF.mk ["wavelength", "intensity"] [[1, 2, 3, 4, 5], [10, 11, 12, 13, 14]]).rowCount =
        (DF.mk ["wavelength", "intensity"] [[1, 2, 3, 4], [1, 1, 1, 1]]).rowCount ∧
      (DF.mk ["wavelength", "intensity"] [[1, 2, 3, 4], [1, 1, 1, 1]]).rowCount =
        (DF.mk ["wavelength", "intensity"] [[1, 2, 3, 4], [2, 2, 2, 2]]).rowCount) ∧
    (ProcessData (DF.mk ["wavelength", "intensity"] [[1, 2, 3, 4, 5], [10, 11, 12, 13, 14]])
        (DF.mk ["wavelength", "intensity"] [[1, 2, 3, 4], [1, 1, 1, 1]])
        (DF.mk ["wavelength", "intensity"] [[1, 2, 3, 4], [2, 2, 2, 2]])).2 = none :=
  ⟨by simp [DF.rowCount],
   c5_amended.1 _ _ _ (by simp [DF.rowCount])⟩

/-- The wavelength column of a keyed map is the key list itself. -/
theorem map_fst_keyed (keys : List ℚ) (f : ℚ → ℚ) :
    (keys.map (fun w => (w, f w))).map Prod.fst = keys := by
  induction keys with
  | nil => rfl
  | cons k t ih => simp only [List.map_cons, ih]

/-- Claim C9: for every non-empty input list, both aggregators succeed and
return tables whose wavelength column is sorted non-decreasing (the groupby
keys are sorted ascending), whatever the order of the input rows. -/
theorem c9_aggregated_wavelengths_sorted (spectra : List SpectrumTable)
    (hne : spectra ≠ []) :
    ∃ avgT addT,
      AverageSpectra spectra = .ok avgT ∧ AddSpectra spectra = .ok addT ∧
      List.Sorted (· ≤ ·) (avgT.map Prod.fst) ∧
      List.Sorted (· ≤ ·) (addT.map Prod.fst) := by
  have hne' : spectra.isEmpty = false := by
    simpa [List.isEmpty_iff] using hne
  refine ⟨(groupKeys (concatRows spectra)).map
      (fun w => (w, sumAt (concatRows spectra) w / (countAt (concatRows spectra) w : ℚ))),
    (groupKeys (concatRows spectra)).map
      (fun w => (w, sumAt (concatRows spectra) w)), ?_, ?_, ?_, ?_⟩
  · simp [AverageSpectra, hne']
  · simp [AddSpectra, hne']
  · rw [map_fst_keyed]
    exact List.sorted_insertionSort _ _
  · rw [map_fst_keyed]
    exact List.sorted_insertionSort _ _

/-- Witness for c9 at the spec scenario tables {(500,10)} and {(500,20)}. -/
theorem c9_aggregated_wavelengths_sorted_witness :
    ([[((500 : ℚ), (10 : ℚ))], [(500, 20)]] : List SpectrumTable) ≠ [] ∧
    (∃ avgT addT,
      AverageSpectra [[((500 : ℚ), (10 : ℚ))], [(500, 20)]] = .ok avgT ∧
      AddSpectra [[((500 : ℚ), (10 : ℚ))], [(500, 20)]] = .ok addT ∧
      List.Sorted (· ≤ ·) (avgT.map Prod.fst) ∧
      List.Sorted (· ≤ ·) (addT.map Prod.fst)) :=
  ⟨by simp, c9_aggregated_wavelengths_sorted _ (by simp)⟩

/-- npGet at an in-range natural index is the plain positional read. -/
theorem npGet_nat (l : List ℚ) (i : ℕ) (h : i < l.length) :
    npGet l (i : ℤ) = .ok (l.getD i 0) := by
  unfold npGet
  rw [if_pos ⟨Int.natCast_nonneg i, by exact_mod_cast h⟩]
  simp

/-- npGet at an index at or past the right end (nonnegative side) raises. -/
theorem npGet_big (l : List ℚ) (i : ℤ) (h0 : 0 ≤ i) (h : (l.length : ℤ) ≤ i) :
    npGet l i = .error "IndexError" := by
  unfold npGet
  rw [if_neg (by omega), if_neg (by omega)]

/-- Claim C2 fails on the code: with a 3-sample window and a catalog line
snapping to index 1, the depth test passes and the lookup spectra[1-10]
is spectra[-9], outside [-3, 3): the loop raises IndexError instead of
resolving to "not detected". -/
theorem c2_counterexample :
    detectCatalog [0, -1, 0] [0, 1, 2] [("X", 1)] (1/2) = .error "IndexError" := by
  norm_num [detectCatalog, detectCatalogStep, argminAbs, argminAux, npGet,
    List.foldlM, List.getD]

/-- Claim C2 amended: an entry whose snapped depth is below the threshold is
skipped without error whatever its index (first conjunct); but an
above-threshold entry near the right edge (snapped index i with i + 10 past
the end) whose left comparison passes raises IndexError, aborting the call
(second conjunct), and an above-threshold entry within 10 samples of the
left edge has its spectra[i-10] lookup wrap to the far end of the array
(Python negative indexing) and can be reported as detected (third
conjunct).  The telluric loop behaves the same with margin 1 (fourth
conjunct: right-edge raise). -/
theorem c2_amended :
    (∀ (s wl : List ℚ) (nm : String) (w th : ℚ) (i : ℕ) (f : ℚ),
        argminAbs wl w = some i → npGet s (i : ℤ) = .ok f → -f < th →
        detectCatalog s wl [(nm, w)] th = .ok [])
  ∧ (∀ (s wl : List ℚ) (nm : String) (w th : ℚ) (i : ℕ) (f lf : ℚ),
        argminAbs wl w = some i → npGet s (i : ℤ) = .ok f → th ≤ -f →
        npGet s ((i : ℤ) - 10) = .ok lf → f < lf → (s.length : ℤ) ≤ (i : ℤ) + 10 →
        detectCatalog s wl [(nm, w)] th = .error "IndexError")
  ∧ (∀ (s wl : List ℚ) (nm : String) (w th : ℚ) (i : ℕ) (f lf rf : ℚ),
        argminAbs wl w = some i → npGet s (i : ℤ) = .ok f → th ≤ -f → i < 10 →
        npGet s ((i : ℤ) - 10) = .ok lf → f < lf →
        npGet s ((i : ℤ) + 10) = .ok rf → f < rf →
        detectCatalog s wl [(nm, w)] th = .ok [(nm, w)])
  ∧ (∀ (s wl : List ℚ) (w : ℚ) (i : ℕ) (f lf : ℚ),
        argminAbs wl w = some i → npGet s (i : ℤ) = .ok f → (0.02 : ℚ) ≤ -f →
        npGet s ((i : ℤ) - 1) = .ok lf → f < lf → (s.length : ℤ) ≤ (i : ℤ) + 1 →
        detectTelluric s wl [w] = .error "IndexError") := by
  refine ⟨?_, ?_, ?_, ?_⟩
  · intro s wl nm w th i f ha hf hlt
    simp [detectCatalog, List.foldlM, detectCatalogStep, ha, hf, not_le.mpr hlt]
  · intro s wl nm w th i f lf ha hf hle hl hflt hlen
    have hr : npGet s ((i : ℤ) + 10) = .error "IndexError" :=
      npGet_big s _ (by omega) (by omega)
    simp [detectCatalog, List.foldlM, detectCatalogStep, ha, hf, hle, hl, hflt, hr]
  · intro s wl nm w th i f lf rf ha hf hle hi hl hflt hr hfrt
    simp [detectCatalog, List.foldlM, detectCatalogStep, ha, hf, hle, hl, hflt,
      hr, hfrt, dictInsert]
  · intro s wl w i f lf ha hf hle hl hflt hlen
    have hr : npGet s ((i : ℤ) + 1) = .error "IndexError" :=
      npGet_big s _ (by omega) (by omega)
    simp [detectTelluric, List.foldlM, detectTelluricStep, ha, hf, hle, hl, hflt, hr]

/-- Witness for c2_amended: (a) a below-threshold entry at the boundary is
skipped cleanly; (b) an above-threshold entry whose +10 lookup passes the
end raises; (c) an above-threshold entry snapped to index 0 is detected via
the wrapped lookups spectra[-10] and spectra[10]; (d) a telluric entry at
the right edge raises. -/
theorem c2_amended_witness :
    detectCatalog [1] [0] [("A", 0)] 1 = .ok []
  ∧ detectCatalog [1, 0, -(1/2), 0, 0, 0, 0, 0, 0, 0, 0, 0]
      [0, 1, 2, 3, 4, 5, 6, 7, 8, 9, 10, 11] [("B", 2)] (1/10) = .error "IndexError"
  ∧ detectCatalog [-1, 0, 0, 0, 0, 7, 0, 0, 0, 0, 9, 0, 0, 0, 0] [0] [("C", 0)] (1/2)
      = .ok [("C", 0)]
  ∧ detectTelluric [0, -1] [0, 1] [1] = .error "IndexError" :=
  ⟨c2_amended.1 [1] [0] "A" 0 1 0 1
      (by norm_num [argminAbs, argminAux])
      (by norm_num [npGet, List.getD])
      (by norm_num),
   c2_amended.2.1 [1, 0, -(1/2), 0, 0, 0, 0, 0, 0, 0, 0, 0]
      [0, 1, 2, 3, 4, 5, 6, 7, 8, 9, 10, 11] "B" 2 (1/10) 2 (-(1/2)) 0
      (by norm_num [argminAbs, argminAux])
      (by norm_num [npGet, List.getD])
      (by norm_num)
      (by norm_num [npGet, List.getD])
      (by norm_num)
      (by norm_num),
   c2_amended.2.2.1 [-1, 0, 0, 0, 0, 7, 0, 0, 0, 0, 9, 0, 0, 0, 0] [0] "C" 0 (1/2) 0
      (-1) 7 9
      (by norm_num [argminAbs, argminAux])
      (by norm_num [npGet, List.getD])
      (by norm_num)
      (by norm_num)
      (by norm_num [npGet, List.getD])
      (by norm_num)
      (by norm_num [npGet, List.getD])
      (by norm_num),
   c2_amended.2.2.2 [0, -1] [0, 1] 1 1 (-1) 0
      (by norm_num [argminAbs, argminAux])
      (by norm_num [npGet, List.getD])
      (by norm_num)
      (by norm_num [npGet, List.getD])
      (by norm_num)
      (by norm_num)⟩

/-- Mapping the keyed overwrite of a Python dict assignment over an
association list whose entries are diagonal pairs changes nothing. -/
theorem map_diag_id (acc : List (ℚ × ℚ)) (hacc : ∀ p ∈ acc, p.1 = p.2) (w : ℚ) :
    acc.map (fun p => if p.1 = w then (w, w) else p) = acc := by
  induction acc with
  | nil => rfl
  | cons a t ih =>
    have ha := hacc a (by simp)
    have ht : ∀ p ∈ t, p.1 = p.2 := fun p hp => hacc p (by simp [hp])
    obtain ⟨a1, a2⟩ := a
    simp only at ha
    subst ha
    by_cases h : a1 = w
    · subst h
      simp [ih ht]
    · simp [if_neg h, ih ht]

/-- A key present in a diagonal association list is there as its own value. -/
theorem diag_mem_of_key (acc : List (ℚ × ℚ)) (hacc : ∀ p ∈ acc, p.1 = p.2)
    (w : ℚ) (hw : w ∈ acc.map Prod.fst) : (w, w) ∈ acc := by
  obtain ⟨p, hp, hpw⟩ := List.mem_map.mp hw
  have hd := hacc p hp
  obtain ⟨p1, p2⟩ := p
  simp only at hpw hd
  subst hpw
  subst hd
  exact hp

/-- Python dict insertion of a diagonal pair keeps entries diagonal and
extends the membership by exactly that key. -/
theorem dictInsert_diag (acc : List (ℚ × ℚ)) (hacc : ∀ p ∈ acc, p.1 = p.2) (w : ℚ) :
    (∀ p ∈ dictInsert acc w w, p.1 = p.2) ∧
    (∀ x : ℚ, (x, x) ∈ dictInsert acc w w ↔ (x, x) ∈ acc ∨ x = w) := by
  unfold dictInsert
  by_cases hw : w ∈ acc.map Prod.fst
  · rw [if_pos hw, map_diag_id acc hacc w]
    refine ⟨hacc, fun x => ⟨Or.inl, ?_⟩⟩
    rintro (h | rfl)
    · exact h
    · exact diag_mem_of_key acc hacc x hw
  · rw [if_neg hw]
    constructor
    · intro p hp
      rcases List.mem_append.mp hp with h | h
      · exact hacc p h
      · simp only [List.mem_singleton] at h
        subst h
        rfl
    · intro x
      rw [List.mem_append]
      simp [Prod.ext_iff]

/-- One telluric iteration with an interior snapped index: no lookup can
fail, and the entry is inserted exactly when the fixed-cutoff depth test
and the one-sample local-minimum test both pass. -/
theorem detectTelluricStep_interior (s wl : List ℚ) (acc : List (ℚ × ℚ)) (w : ℚ)
    (i : ℕ) (hi : argminAbs wl w = some i) (h1 : 1 ≤ i) (h2 : i + 1 < s.length) :
    detectTelluricStep s wl acc w =
      .ok (if (0.02 : ℚ) ≤ -(s.getD i 0) ∧ s.getD i 0 < s.getD (i - 1) 0 ∧
            s.getD i 0 < s.getD (i + 1) 0
          then dictInsert acc w w else acc) := by
  have hfi : npGet s (i : ℤ) = .ok (s.getD i 0) := npGet_nat s i (by omega)
  have hli : npGet s ((i : ℤ) - 1) = .ok (s.getD (i - 1) 0) := by
    have he : (i : ℤ) - 1 = ((i - 1 : ℕ) : ℤ) := by omega
    rw [he]
    exact npGet_nat s (i - 1) (by omega)
  have hri : npGet s ((i : ℤ) + 1) = .ok (s.getD (i + 1) 0) := by
    have he : (i : ℤ) + 1 = ((i + 1 : ℕ) : ℤ) := by omega
    rw [he]
    exact npGet_nat s (i + 1) (by omega)
  set fv := s.getD i 0 with hfv
  set lv := s.getD (i - 1) 0 with hlv
  set rv2 := s.getD (i + 1) 0 with hrv
  by_cases c1 : (0.02 : ℚ) ≤ -fv
  · by_cases c2 : fv < lv
    · by_cases c3 : fv < rv2
      · simp [detectTelluricStep, hi, hfi, hli, hri, c1, c2, c3]
      · simp [detectTelluricStep, hi, hfi, hli, hri, c1, c2, c3]
    · simp [detectTelluricStep, hi, hfi, hli, c1, c2]
  · simp [detectTelluricStep, hi, hfi, c1]

/-- The telluric loop with every snapped index interior: it always
succeeds, keeps entries diagonal, and its result holds (x, x) exactly for
an already-present entry or a processed wavelength passing the test. -/
theorem detectTelluric_go (s wl : List ℚ) (ws : List ℚ) :
    ∀ acc : List (ℚ × ℚ),
      (∀ w ∈ ws, ∃ i : ℕ, argminAbs wl w = some i ∧ 1 ≤ i ∧ i + 1 < s.length) →
      (∀ p ∈ acc, p.1 = p.2) →
      ∃ res, List.foldlM (detectTelluricStep s wl) acc ws = .ok res ∧
        (∀ p ∈ res, p.1 = p.2) ∧
        (∀ x : ℚ, (x, x) ∈ res ↔ ((x, x) ∈ acc ∨ (x ∈ ws ∧
          ∃ i : ℕ, argminAbs wl x = some i ∧ (0.02 : ℚ) ≤ -(s.getD i 0) ∧
            s.getD i 0 < s.getD (i - 1) 0 ∧ s.getD i 0 < s.getD (i + 1) 0))) := by
  induction ws with
  | nil =>
    intro acc _ hacc
    exact ⟨acc, by simp [List.foldlM], hacc, by simp⟩
  | cons w ws ih =>
    intro acc hint hacc
    obtain ⟨i, hi, h1, h2⟩ := hint w (by simp)
    have hstep := detectTelluricStep_interior s wl acc w i hi h1 h2
    by_cases hc : (0.02 : ℚ) ≤ -(s.getD i 0) ∧ s.getD i 0 < s.getD (i - 1) 0 ∧
        s.getD i 0 < s.getD (i + 1) 0
    · rw [if_pos hc] at hstep
      obtain ⟨hd, hm⟩ := dictInsert_diag acc hacc w
      obtain ⟨res, hres, hdiag, hmem⟩ := ih (dictInsert acc w w)
        (fun v hv => hint v (by simp [hv])) hd
      refine ⟨res, ?_, hdiag, ?_⟩
      · rw [List.foldlM_cons, hstep]
        simpa using hres
      · intro x
        rw [hmem x, hm x]
        have hcw : ∃ i' : ℕ, argminAbs wl w = some i' ∧ (0.02 : ℚ) ≤ -(s.getD i' 0) ∧
            s.getD i' 0 < s.getD (i' - 1) 0 ∧ s.getD i' 0 < s.getD (i' + 1) 0 :=
          ⟨i, hi, hc.1, hc.2.1, hc.2.2⟩
        simp only [List.mem_cons]
        constructor
        · rintro ((h | rfl) | ⟨hws, hcx⟩)
          · exact Or.inl h
          · exact Or.inr ⟨Or.inl rfl, hcw⟩
          · exact Or.inr ⟨Or.inr hws, hcx⟩
        · rintro (h | ⟨(rfl | hws), hcx⟩)
          · exact Or.inl (Or.inl h)
          · exact Or.inl (Or.inr rfl)
          · exact Or.inr ⟨hws, hcx⟩
    · rw [if_neg hc] at hstep
      have hncw : ¬ ∃ i' : ℕ, argminAbs wl w = some i' ∧ (0.02 : ℚ) ≤ -(s.getD i' 0) ∧
          s.getD i' 0 < s.getD (i' - 1) 0 ∧ s.getD i' 0 < s.getD (i' + 1) 0 := by
        rintro ⟨i', hi', hcc⟩
        rw [hi] at hi'
        injection hi' with h
        subst h
        exact hc hcc
      obtain ⟨res, hres, hdiag, hmem⟩ := ih acc
        (fun v hv => hint v (by simp [hv])) hacc
      refine ⟨res, ?_, hdiag, ?_⟩
      · rw [List.foldlM_cons, hstep]
        simpa using hres
      · intro x
        rw [hmem x]
        simp only [List.mem_cons]
        constructor
        · rintro (h | ⟨hws, hcx⟩)
          · exact Or.inl h
          · exact Or.inr ⟨Or.inr hws, hcx⟩
        · rintro (h | ⟨(rfl | hws), hcx⟩)
          · exact Or.inl h
          · exact absurd hcx hncw
          · exact Or.inr ⟨hws, hcx⟩

/-- Claim C10: when every telluric entry snaps to an interior index the
telluric loop succeeds and records a wavelength exactly when the depth at
its snapped index reaches the fixed cutoff 0.02 and the flux there is
strictly below the flux one sample to each side (first conjunct); and the
caller-supplied threshold has no effect on the telluric detections: two
successful runs differing only in the threshold return identical telluric
dicts (second conjunct; the threshold is read only by the catalog loop). -/
theorem c10_telluric_fixed_cutoff :
    (∀ s wl ws : List ℚ,
      (∀ w ∈ ws, ∃ i : ℕ, argminAbs wl w = some i ∧ 1 ≤ i ∧ i + 1 < s.length) →
      ∃ res, detectTelluric s wl ws = .ok res ∧
        ∀ w ∈ ws, ((w, w) ∈ res ↔
          ∃ i : ℕ, argminAbs wl w = some i ∧ (0.02 : ℚ) ≤ -(s.getD i 0) ∧
            s.getD i 0 < s.getD (i - 1) 0 ∧ s.getD i 0 < s.getD (i + 1) 0))
  ∧ (∀ (g s wp : List ℚ) (lines : List (String × ℚ)) (tl : List ℚ) (th₁ th₂ : ℚ)
      (r₁ r₂ : List (String × ℚ) × List (ℚ × ℚ)),
      DetectAndPlotLines g s wp lines tl th₁ = .ok r₁ →
      DetectAndPlotLines g s wp lines tl th₂ = .ok r₂ → r₁.2 = r₂.2) := by
  constructor
  · intro s wl ws hint
    obtain ⟨res, hres, _, hmem⟩ := detectTelluric_go s wl ws [] hint (by simp)
    refine ⟨res, hres, fun w hw => ?_⟩
    rw [hmem w]
    simp [hw]
  · intro g s wp lines tl th₁ th₂ r₁ r₂ h1 h2
    unfold DetectAndPlotLines at h1 h2
    rcases hd1 : detectCatalog s g lines th₁ with e | d₁ <;> rw [hd1] at h1 <;>
      simp at h1
    rcases hd2 : detectCatalog s g lines th₂ with e | d₂ <;> rw [hd2] at h2 <;>
      simp at h2
    rcases ht : detectTelluric s g tl with e | t <;> rw [ht] at h1 h2 <;>
      simp at h1 h2
    rw [← h1, ← h2]

/-- Witness for c10: one telluric entry snapping to the interior index 1 of
a 3-sample window with a dip, and two full runs differing only in the
threshold. -/
theorem c10_telluric_fixed_cutoff_witness :
    (∀ w ∈ ([5] : List ℚ), ∃ i : ℕ, argminAbs [4, 5, 6] w = some i ∧ 1 ≤ i ∧
      i + 1 < ([0, -1, 0] : List ℚ).length) ∧
    (∃ res, detectTelluric [0, -1, 0] [4, 5, 6] [5] = .ok res ∧
      ∀ w ∈ ([5] : List ℚ), ((w, w) ∈ res ↔
        ∃ i : ℕ, argminAbs [4, 5, 6] w = some i ∧
          (0.02 : ℚ) ≤ -(([0, -1, 0] : List ℚ).getD i 0) ∧
          ([0, -1, 0] : List ℚ).getD i 0 < ([0, -1, 0] : List ℚ).getD (i - 1) 0 ∧
          ([0, -1, 0] : List ℚ).getD i 0 < ([0, -1, 0] : List ℚ).getD (i + 1) 0)) ∧
    DetectAndPlotLines [4, 5, 6] [0, -1, 0] [7, 8, 9] [] [5] 0 = .ok ([], [(5, 5)]) ∧
    DetectAndPlotLines [4, 5, 6] [0, -1, 0] [7, 8, 9] [] [5] 1 = .ok ([], [(5, 5)]) ∧
    ((([], [(5, 5)]) : List (String × ℚ) × List (ℚ × ℚ)).2 =
      (([], [(5, 5)]) : List (String × ℚ) × List (ℚ × ℚ)).2) := by
  have hint : ∀ w ∈ ([5] : List ℚ), ∃ i : ℕ, argminAbs [4, 5, 6] w = some i ∧ 1 ≤ i ∧
      i + 1 < ([0, -1, 0] : List ℚ).length := by
    intro w hw
    simp only [List.mem_singleton] at hw
    subst hw
    exact ⟨1, by norm_num [argminAbs, argminAux], by norm_num, by norm_num⟩
  have h1 : DetectAndPlotLines [4, 5, 6] [0, -1, 0] [7, 8, 9] [] [5] 0
      = .ok ([], [(5, 5)]) := by
    norm_num [DetectAndPlotLines, detectCatalog, detectTelluric, detectTelluricStep,
      argminAbs, argminAux, npGet, List.foldlM, dictInsert, List.getD]
  have h2 : DetectAndPlotLines [4, 5, 6] [0, -1, 0] [7, 8, 9] [] [5] 1
      = .ok ([], [(5, 5)]) := by
    norm_num [DetectAndPlotLines, detectCatalog, detectTelluric, detectTelluricStep,
      argminAbs, argminAux, npGet, List.foldlM, dictInsert, List.getD]
  exact ⟨hint, c10_telluric_fixed_cutoff.1 [0, -1, 0] [4, 5, 6] [5] hint, h1, h2,
    c10_telluric_fixed_cutoff.2 [4, 5, 6] [0, -1, 0] [7, 8, 9] [] [5] 0 1 _ _ h1 h2⟩

/-- Sum of squares of rationals is nonnegative. -/
theorem sumSqQ_nonneg (l : List ℚ) : 0 ≤ sumSqQ l := by
  induction l with
  | nil => simp [sumSqQ]
  | cons x t ih =>
    simp only [sumSqQ, List.map_cons, List.sum_cons] at *
    nlinarith [mul_self_nonneg x]

/-- Sum of squares is positive when some entry is nonzero. -/
theorem sumSqQ_pos (l : List ℚ) (h : ∃ x ∈ l, x ≠ 0) : 0 < sumSqQ l := by
  obtain ⟨x, hx, hx0⟩ := h
  induction l with
  | nil => cases hx
  | cons a t ih =>
    rcases List.mem_cons.mp hx with rfl | hxt
    · have ht := sumSqQ_nonneg t
      simp only [sumSqQ, List.map_cons, List.sum_cons] at *
      nlinarith [mul_self_pos.mpr hx0]
    · have ht := ih hxt
      have ha := mul_self_nonneg a
      simp only [sumSqQ, List.map_cons, List.sum_cons] at *
      nlinarith

/-- Casting a rational sum of squares to the reals. -/
theorem sumSqR_cast (l : List ℚ) :
    sumSqR (l.map (fun x : ℚ => (x : ℝ))) = ((sumSqQ l : ℚ) : ℝ) := by
  induction l with
  | nil => simp [sumSqR, sumSqQ]
  | cons x t ih =>
    simp only [sumSqR, sumSqQ, List.map_cons, List.sum_cons] at *
    push_cast
    rw [ih]
    push_cast
    ring

/-- Dividing every entry by a scalar divides the sum of squares by its
square (also for the zero scalar, with both sides zero). -/
theorem sumSqR_map_div (l : List ℝ) (s : ℝ) :
    sumSqR (l.map (fun x => x / s)) = sumSqR l / (s * s) := by
  induction l with
  | nil => simp [sumSqR]
  | cons x t ih =>
    simp only [sumSqR, List.map_cons, List.sum_cons] at *
    rw [ih, div_mul_div_comm, div_add_div_same]

/-- Claim C6: on a windowed input of matching lengths whose fitted residual
is not identically zero, FitContinuum returns exactly the residual divided
by its global Euclidean norm (third conjunct, one scalar for the whole
window), so the output has unit L2 norm (second conjunct: the sum of
squares is one) and the length of the windowed input (first conjunct). -/
theorem c6_fitcontinuum_normalized (d : ℕ) (wl ys : List ℚ)
    (hlen : wl.length = ys.length)
    (hnz : ∃ x ∈ residualVec d wl ys, x ≠ 0) :
    (FitContinuum d wl ys).length = ys.length ∧
    sumSqR (FitContinuum d wl ys) = 1 ∧
    FitContinuum d wl ys = (residualVec d wl ys).map
      (fun x : ℚ => (x : ℝ) / Real.sqrt ((sumSqQ (residualVec d wl ys) : ℚ) : ℝ)) := by
  refine ⟨FitContinuum_length d wl ys hlen, ?_, rfl⟩
  have hpos : 0 < sumSqQ (residualVec d wl ys) := sumSqQ_pos _ hnz
  have hSpos : (0 : ℝ) < ((sumSqQ (residualVec d wl ys) : ℚ) : ℝ) := by
    exact_mod_cast hpos
  have hmap : FitContinuum d wl ys =
      ((residualVec d wl ys).map (fun x : ℚ => (x : ℝ))).map
        (fun x => x / Real.sqrt ((sumSqQ (residualVec d wl ys) : ℚ) : ℝ)) := by
    simp only [FitContinuum, List.map_map]
    rfl
  rw [hmap, sumSqR_map_div, sumSqR_cast, Real.mul_self_sqrt hSpos.le]
  exact div_self (ne_of_gt hSpos)

/-- Witness for c6: degree 1 over wavelengths [1,2,3] with the dip
intensity [0,1,0]; the fitted continuum is the constant 1/3, the residual
[-1/3, 2/3, -1/3] is nonzero. -/
theorem c6_fitcontinuum_normalized_witness :
    ([1, 2, 3] : List ℚ).length = ([0, 1, 0] : List ℚ).length ∧
    (∃ x ∈ residualVec 1 [1, 2, 3] [0, 1, 0], x ≠ 0) ∧
    ((FitContinuum 1 [1, 2, 3] [0, 1, 0]).length = ([0, 1, 0] : List ℚ).length ∧
     sumSqR (FitContinuum 1 [1, 2, 3] [0, 1, 0]) = 1 ∧
     FitContinuum 1 [1, 2, 3] [0, 1, 0] = (residualVec 1 [1, 2, 3] [0, 1, 0]).map
       (fun x : ℚ => (x : ℝ) /
         Real.sqrt ((sumSqQ (residualVec 1 [1, 2, 3] [0, 1, 0]) : ℚ) : ℝ))) := by
  have hr : residualVec 1 [1, 2, 3] [0, 1, 0] = [-(1/3), 2/3, -(1/3)] := by
    norm_num [residualVec, chebFit, scaleX, normalRow, chebCol, chebT, dotQ, gaussSolve,
      splitPivot, elimAgainst, List.range, List.range.loop]
  have hnz : ∃ x ∈ residualVec 1 [1, 2, 3] [0, 1, 0], x ≠ 0 := by
    rw [hr]
    exact ⟨2/3, by norm_num, by norm_num⟩
  exact ⟨by norm_num, hnz,
    c6_fitcontinuum_normalized 1 [1, 2, 3] [0, 1, 0] (by norm_num) hnz⟩

/-- Looking up a key of a keyed map yields its value. -/
theorem lookupI_keyed (keys : List ℚ) (f : ℚ → ℚ) (w : ℚ) (hw : w ∈ keys) :
    lookupI (keys.map (fun k => (k, f k))) w = some (f w) := by
  induction keys with
  | nil => cases hw
  | cons k t ih =>
    by_cases h : k = w
    · subst h
      simp [lookupI, List.find?_cons_of_pos]
    · rcases List.mem_cons.mp hw with rfl | hwt
      · exact absurd rfl h
      · simp only [lookupI, List.map_cons] at *
        rw [List.find?_cons_of_neg _ (by simp [h])]
        exact ih hwt

/-- Membership in the sorted deduplicated group keys is membership among
the row wavelengths. -/
theorem mem_groupKeys (rows : List (ℚ × ℚ)) (w : ℚ) :
    w ∈ groupKeys rows ↔ w ∈ rows.map Prod.fst := by
  unfold groupKeys
  rw [(List.perm_insertionSort _ _).mem_iff, List.mem_dedup]

/-- A wavelength occurs among the concatenated rows exactly when some input
table contains it. -/
theorem mem_map_fst_concat (spectra : List SpectrumTable) (w : ℚ) :
    w ∈ (concatRows spectra).map Prod.fst ↔ ∃ t ∈ spectra, w ∈ t.map Prod.fst := by
  simp only [concatRows, List.mem_map, List.mem_flatten]
  constructor
  · rintro ⟨r, ⟨t, ht, hrt⟩, hw⟩
    exact ⟨t, ht, r, hrt, hw⟩
  · rintro ⟨t, ht, r, hrt, hw⟩
    exact ⟨r, ⟨t, ht, hrt⟩, hw⟩

/-- The group sum over the concatenated rows is the sum of the per-table
group sums. -/
theorem sumAt_flatten (spectra : List SpectrumTable) (w : ℚ) :
    sumAt (concatRows spectra) w = (spectra.map (fun t => sumAt t w)).sum := by
  induction spectra with
  | nil => rfl
  | cons t ts ih =>
    simp only [concatRows, List.flatten_cons, sumAt, List.filter_append, List.map_append,
      List.sum_append, List.map_cons, List.sum_cons] at *
    rw [ih]

/-- The group size over the concatenated rows is the sum of the per-table
group sizes. -/
theorem countAt_flatten (spectra : List SpectrumTable) (w : ℚ) :
    countAt (concatRows spectra) w = (spectra.map (fun t => countAt t w)).sum := by
  induction spectra with
  | nil => rfl
  | cons t ts ih =>
    simp only [concatRows, List.flatten_cons, countAt, List.filter_append,
      List.length_append, List.map_cons, List.sum_cons] at *
    rw [ih]

/-- In a table with distinct wavelengths containing w, the group at w is
the single row recording w: its sum is that intensity and its size one. -/
theorem table_at_of_mem (t : SpectrumTable) (hnd : (t.map Prod.fst).Nodup) (w : ℚ)
    (hw : w ∈ t.map Prod.fst) :
    sumAt t w = intensityAt t w ∧ countAt t w = 1 := by
  induction t with
  | nil => cases hw
  | cons r rs ih =>
    obtain ⟨r1, r2⟩ := r
    simp only [List.map_cons, List.nodup_cons] at hnd
    by_cases h : r1 = w
    · subst h
      have hfil : rs.filter (fun p => decide (p.1 = r1)) = [] := by
        rw [List.filter_eq_nil_iff]
        intro p hp
        simp only [decide_eq_true_eq]
        intro hpw
        exact hnd.1 (List.mem_map.mpr ⟨p, hp, hpw⟩)
      constructor
      · simp [sumAt, intensityAt, List.filter_cons, hfil, List.find?_cons_of_pos]
      · simp [countAt, List.filter_cons, hfil]
    · have hwt : w ∈ rs.map Prod.fst := by
        rcases List.mem_cons.mp hw with hww | hwt
        · exact absurd hww.symm h
        · exact hwt
      obtain ⟨ihs, ihc⟩ := ih hnd.2 hwt
      constructor
      · simp only [sumAt, intensityAt, List.filter_cons] at *
        rw [List.find?_cons_of_neg _ (by simp [h])]
        simpa [h] using ihs
      · simp only [countAt, List.filter_cons] at *
        simpa [h] using ihc

/-- In a table not containing w, the group at w is empty. -/
theorem table_at_of_not_mem (t : SpectrumTable) (w : ℚ) (hw : w ∉ t.map Prod.fst) :
    sumAt t w = 0 ∧ countAt t w = 0 := by
  have hfil : t.filter (fun p => decide (p.1 = w)) = [] := by
    rw [List.filter_eq_nil_iff]
    intro p hp
    simp only [decide_eq_true_eq]
    intro hpw
    exact hw (List.mem_map.mpr ⟨p, hp, hpw⟩)
  constructor
  · simp [sumAt, hfil]
  · simp [countAt, hfil]

/-- Per-table group sums collapse to the tables containing w: the total is
the sum of their recorded intensities, and the total count is how many
tables contain w. -/
theorem sum_count_over_tables (spectra : List SpectrumTable)
    (hnd : ∀ t ∈ spectra, (t.map Prod.fst).Nodup) (w : ℚ) :
    (spectra.map (fun t => sumAt t w)).sum =
      ((tablesContaining spectra w).map (fun t => intensityAt t w)).sum ∧
    (spectra.map (fun t => countAt t w)).sum = (tablesContaining spectra w).length := by
  induction spectra with
  | nil => simp [tablesContaining]
  | cons t ts ih =>
    have hndt := hnd t (by simp)
    have hnds : ∀ u ∈ ts, (u.map Prod.fst).Nodup := fun u hu => hnd u (by simp [hu])
    obtain ⟨ihs, ihc⟩ := ih hnds
    by_cases hw : w ∈ t.map Prod.fst
    · have hft : tablesContaining (t :: ts) w = t :: tablesContaining ts w := by
        simp [tablesContaining, List.filter_cons, hw]
      obtain ⟨hs1, hc1⟩ := table_at_of_mem t hndt w hw
      constructor
      · rw [List.map_cons, List.sum_cons, hft, List.map_cons, List.sum_cons, hs1, ihs]
      · rw [List.map_cons, List.sum_cons, hft, List.length_cons, hc1, ihc]
        omega
    · have hft : tablesContaining (t :: ts) w = tablesContaining ts w := by
        simp [tablesContaining, List.filter_cons, hw]
      obtain ⟨hs0, hc0⟩ := table_at_of_not_mem t w hw
      constructor
      · rw [List.map_cons, List.sum_cons, hft, hs0, ihs, zero_add]
      · rw [List.map_cons, List.sum_cons, hft, hc0, ihc, Nat.zero_add]

/-- Claim C1: for a non-empty batch of tables with distinct in-table
wavelengths, both aggregators succeed; the output wavelength set of each is
the union of the input wavelength sets (partial union); and at every
wavelength w of that union the mean-aggregated intensity is the arithmetic
mean, and the sum-aggregated intensity the sum, of the intensities recorded
by exactly those input tables that contain w. -/
theorem c1_aggregation_union_semantics (spectra : List SpectrumTable)
    (hne : spectra ≠ [])
    (hnd : ∀ t ∈ spectra, (t.map Prod.fst).Nodup) :
    ∃ avgT addT,
      AverageSpectra spectra = .ok avgT ∧ AddSpectra spectra = .ok addT ∧
      (∀ w : ℚ, (w ∈ avgT.map Prod.fst ↔ ∃ t ∈ spectra, w ∈ t.map Prod.fst) ∧
                (w ∈ addT.map Prod.fst ↔ ∃ t ∈ spectra, w ∈ t.map Prod.fst)) ∧
      (∀ w : ℚ, (∃ t ∈ spectra, w ∈ t.map Prod.fst) →
        lookupI avgT w = some
          (((tablesContaining spectra w).map (fun t => intensityAt t w)).sum /
            ((tablesContaining spectra w).length : ℚ)) ∧
        lookupI addT w = some
          (((tablesContaining spectra w).map (fun t => intensityAt t w)).sum)) := by
  have hne' : spectra.isEmpty = false := by
    simpa [List.isEmpty_iff] using hne
  refine ⟨(groupKeys (concatRows spectra)).map
      (fun w => (w, sumAt (concatRows spectra) w / (countAt (concatRows spectra) w : ℚ))),
    (groupKeys (concatRows spectra)).map
      (fun w => (w, sumAt (concatRows spectra) w)),
    by simp [AverageSpectra, hne'], by simp [AddSpectra, hne'], ?_, ?_⟩
  · intro w
    rw [map_fst_keyed, map_fst_keyed, mem_groupKeys, mem_map_fst_concat]
    exact ⟨Iff.rfl, Iff.rfl⟩
  · intro w hw
    have hwk : w ∈ groupKeys (concatRows spectra) := by
      rw [mem_groupKeys, mem_map_fst_concat]
      exact hw
    obtain ⟨hs, hc⟩ := sum_count_over_tables spectra hnd w
    constructor
    · rw [lookupI_keyed _ _ _ hwk, sumAt_flatten, countAt_flatten, hs, hc]
    · rw [lookupI_keyed _ _ _ hwk, sumAt_flatten, hs]

/-- Witness for c1 at the spec scenario: tables {(500,10)} and {(500,20)}
(the aggregates are {(500,15)} and {(500,30)}). -/
theorem c1_aggregation_union_semantics_witness :
    ([[((500 : ℚ), (10 : ℚ))], [(500, 20)]] : List SpectrumTable) ≠ [] ∧
    (∀ t ∈ ([[((500 : ℚ), (10 : ℚ))], [(500, 20)]] : List SpectrumTable),
      (t.map Prod.fst).Nodup) ∧
    (∃ avgT addT,
      AverageSpectra [[((500 : ℚ), (10 : ℚ))], [(500, 20)]] = .ok avgT ∧
      AddSpectra [[((500 : ℚ), (10 : ℚ))], [(500, 20)]] = .ok addT ∧
      (∀ w : ℚ, (w ∈ avgT.map Prod.fst ↔
          ∃ t ∈ ([[((500 : ℚ), (10 : ℚ))], [(500, 20)]] : List SpectrumTable),
            w ∈ t.map Prod.fst) ∧
        (w ∈ addT.map Prod.fst ↔
          ∃ t ∈ ([[((500 : ℚ), (10 : ℚ))], [(500, 20)]] : List SpectrumTable),
            w ∈ t.map Prod.fst)) ∧
      (∀ w : ℚ, (∃ t ∈ ([[((500 : ℚ), (10 : ℚ))], [(500, 20)]] : List SpectrumTable),
          w ∈ t.map Prod.fst) →
        lookupI avgT w = some
          (((tablesContaining [[((500 : ℚ), (10 : ℚ))], [(500, 20)]] w).map
              (fun t => intensityAt t w)).sum /
            ((tablesContaining [[((500 : ℚ), (10 : ℚ))], [(500, 20)]] w).length : ℚ)) ∧
        lookupI addT w = some
          (((tablesContaining [[((500 : ℚ), (10 : ℚ))], [(500, 20)]] w).map
              (fun t => intensityAt t w)).sum))) := by
  have hnd : ∀ t ∈ ([[((500 : ℚ), (10 : ℚ))], [(500, 20)]] : List SpectrumTable),
      (t.map Prod.fst).Nodup := by
    intro t ht
    rcases List.mem_cons.mp ht with rfl | ht2
    · simp
    · simp only [List.mem_singleton] at ht2
      subst ht2
      simp
  exact ⟨by simp, hnd, c1_aggregation_union_semantics _ (by simp) hnd⟩
